import Mathlib

/-!
Verification of the conversion engine of `mass_img_to_pdf.py` (class
`PDFConverter`): group discovery over ZIP entry lists, per-image page layout,
collision-safe output naming, orchestration of PDF creation, and optional
source cleanup.

The Python code is shallowly embedded: pure string manipulations
(`os.path.dirname`, `os.path.basename`, `os.path.splitext`, `str.lower`,
`str.endswith`, `str.replace`) become Lean functions on `String`
(`String.data` char lists; Python compares and lowercases by code point, which
for the ASCII constants involved agrees with `Char.toLower`).  Filesystem and
library effects (`Image.open`, `pdf.output`, `zipfile.ZipFile`, `os.remove`,
`os.rmdir`) are driven by explicit oracles describing the world: a decode
oracle per image, a write-success oracle per output path, an open-success flag
per archive, and an association list from directory to its direct entries for
the cleanup pass.  Paths are POSIX (`os.sep = '/'`), matching the `'/'`
separator of ZIP entry names used by the code.
-/

namespace MassImgToPdf

/-! ## String utilities mirroring the `os.path` / `str` operations used -/

/-- Python `str.lower()` restricted to its effect on ASCII letters, the only
characters occurring in the extension constants being matched. -/
def lowerStr (s : String) : String := ⟨s.data.map Char.toLower⟩

/-- Python `str.endswith(suffix)`. -/
def endsWithStr (s suf : String) : Bool := suf.data.isSuffixOf s.data

/-- The accepted image extensions, line 150 / line 240 of the source. -/
def imageExtensions : List String := [".png", ".jpg", ".jpeg", ".gif", ".bmp"]

/-- The filter `f.lower().endswith(image_extensions)` (lines 119-120, 159,
245-246). -/
def isImageName (f : String) : Bool :=
  imageExtensions.any (fun e => endsWithStr (lowerStr f) e)

/-- The filter `file.lower().endswith(".zip")` (lines 103, 112). -/
def isZipName (f : String) : Bool := endsWithStr (lowerStr f) ".zip"

/-- Drop trailing slashes from a character list. -/
def rstripSlash (cs : List Char) : List Char :=
  (cs.reverse.dropWhile (· == '/')).reverse

/-- POSIX `os.path.dirname` (line 160): everything up to the last `'/'`, with
trailing slashes stripped unless the head consists only of slashes; the empty
string when there is no slash. -/
def dirName (p : String) : String :=
  let head := (p.data.reverse.dropWhile (· ≠ '/')).reverse
  if head.all (· == '/') then ⟨head⟩ else ⟨rstripSlash head⟩

/-- POSIX `os.path.basename` (lines 129, 168): everything after the last
`'/'`. -/
def baseName (p : String) : String :=
  ⟨(p.data.reverse.takeWhile (· ≠ '/')).reverse⟩

/-- The stem part of POSIX `os.path.splitext` (line 168) on a separator-free
name: cut at the last dot when some earlier character of the name is not a
dot, otherwise return the name unchanged. -/
def splitextBase (p : String) : String :=
  let cs := p.data
  let revAfter := cs.reverse.takeWhile (· ≠ '.')
  if revAfter.length = cs.length then p
  else
    let stem := (cs.reverse.drop (revAfter.length + 1)).reverse
    if stem.any (· ≠ '.') then ⟨stem⟩ else p

/-- Python `s.replace('/', '_').replace(os.sep, '_')` (lines 131, 178); on
POSIX `os.sep = '/'` so the second replace is the identity, and replacing a
single character is a character-wise map. -/
def replaceSep (s : String) : String :=
  ⟨s.data.map (fun c => if c = '/' then '_' else c)⟩

/-! ## Page layout (lines 188-200 and the identical lines 262-274) -/

/-- Line 189 / 263: `orientation = "L" if img_w > img_h else "P"`. -/
def orientationOf (w h : Nat) : String := if w > h then "L" else "P"

/-- The fixed page margin, lines 151 and 253. -/
def pageMargin : ℚ := 10

/-- FPDF default page size (A4, millimetres): width and height of the page for
a given orientation string, as exposed by `pdf.w` / `pdf.h` after
`pdf.add_page(orientation=orientation)`. -/
def pageDims (orientation : String) : ℚ × ℚ :=
  if orientation = "L" then (297, 210) else (210, 297)

/-- The per-page placement computed at lines 192-200 / 266-274: available box
after margins, scale ratio, scaled size and centred position.  Arithmetic is
modelled over `ℚ` in place of Python floats. -/
structure Layout where
  ratio : ℚ
  newW : ℚ
  newH : ℚ
  x : ℚ
  y : ℚ
deriving Repr, DecidableEq

/-- Lines 192-200 / 266-274 for page size `(pageW, pageH)`, margin `margin`
and image pixel size `(imgW, imgH)`. -/
def computeLayout (pageW pageH margin : ℚ) (imgW imgH : Nat) : Layout :=
  let maxW := pageW - 2 * margin
  let maxH := pageH - 2 * margin
  let ratio := min (maxW / (imgW : ℚ)) (maxH / (imgH : ℚ))
  let newW := (imgW : ℚ) * ratio
  let newH := (imgH : ℚ) * ratio
  { ratio := ratio, newW := newW, newH := newH,
    x := (pageW - newW) / 2, y := (pageH - newH) / 2 }

/-! ## Collision-safe output naming (`_get_unique_pdf_path`, lines 86-97) -/

/-- Little-endian decimal digits of `n`, with explicit structural fuel (any
fuel above the digit count gives the same value). -/
def toDigitsRev : Nat → Nat → List Nat
  | 0, _ => []
  | fuel + 1, n => if n < 10 then [n] else (n % 10) :: toDigitsRev fuel (n / 10)

/-- The ASCII character of a decimal digit. -/
def digitChar (d : Nat) : Char := Char.ofNat (48 + d)

/-- Python `str(n)` / f-string rendering of a nonnegative integer. -/
def natToDecimal (n : Nat) : String :=
  ⟨((toDigitsRev (n + 1) n).map digitChar).reverse⟩

/-- The value denoted by a little-endian digit list; inverse of `toDigitsRev`,
used to show decimal renderings of distinct numbers are distinct. -/
def fromDigitsRev : List Nat → Nat
  | [] => 0
  | d :: ds => d + 10 * fromDigitsRev ds

/-- The candidate output paths probed by `_get_unique_pdf_path`:
`{output_folder}/{base_name}.pdf` first (lines 88-89), then
`{output_folder}/{base_name} (counter).pdf` for `counter = 1, 2, …`
(lines 93-94).  `os.path.join` on the absolute output folder concatenates with
`'/'` and the subsequent `os.path.abspath` is the identity on such paths. -/
def pdfCandidate (dir base : String) : Nat → String
  | 0 => dir ++ "/" ++ base ++ ".pdf"
  | n + 1 => dir ++ "/" ++ base ++ " (" ++ natToDecimal (n + 1) ++ ").pdf"

/-- The `while os.path.exists(pdf_path)` loop of lines 92-95, probing
candidates from `counter` on.  The existing files of the output folder are the
list `fs`; the structural fuel is chosen by the caller large enough that a
free candidate is always found before it runs out. -/
def getUniquePdfPathAux (fs : List String) (dir base : String) :
    Nat → Nat → String
  | counter, 0 => pdfCandidate dir base counter
  | counter, fuel + 1 =>
    let cand := pdfCandidate dir base counter
    if cand ∈ fs then getUniquePdfPathAux fs dir base (counter + 1) fuel else cand

/-- Lines 86-97: the first candidate path that does not exist in the output
folder `dir`, whose current contents are `fs`. -/
def getUniquePdfPath (fs : List String) (dir base : String) : String :=
  getUniquePdfPathAux fs dir base 0 (fs.length + 1)

/-! ## Sorting (`image_files.sort()` / `sorted(...)`, lines 173 and 241) -/

/-- Lexicographic comparison of character lists by code point, the order
Python uses to compare strings. -/
def lexLe : List Char → List Char → Bool
  | [], _ => true
  | _ :: _, [] => false
  | a :: as, b :: bs => if a < b then true else if b < a then false else lexLe as bs

/-- Python string comparison `a <= b`. -/
def strLeb (a b : String) : Bool := lexLe a.data b.data

/-- The ordering relation on strings used in sortedness statements. -/
def strLe (a b : String) : Prop := strLeb a b = true

/-- Insert a string into a sorted list, keeping it sorted. -/
def insertSorted (a : String) : List String → List String
  | [] => [a]
  | b :: bs => if strLeb a b then a :: b :: bs else b :: insertSorted a bs

/-- Python `list.sort()` / `sorted(...)` on strings (lines 173, 241-247):
sorting by code-point lexicographic order.  Modelled as insertion sort, which
returns the same list as any sort for this total antisymmetric order. -/
def sortStrings (l : List String) : List String := l.foldr insertSorted []

/-! ## ZIP group discovery (lines 156-166) -/

/-- Append `f` to the group of `key`, creating the group at the end when the
key is new: the behaviour of `images_by_folder[dir_name].append(f)` with
Python dicts preserving insertion order (lines 160-163). -/
def groupInsert : List (String × List String) → String → String → List (String × List String)
  | [], key, f => [(key, [f])]
  | (k, fs) :: rest, key, f =>
    if k = key then (k, fs ++ [f]) :: rest else (k, fs) :: groupInsert rest key f

/-- Lines 157-163: the accepted-extension entries of `z.namelist()` grouped by
`os.path.dirname`, as an insertion-ordered association list. -/
def imagesByFolder (entries : List String) : List (String × List String) :=
  entries.foldl
    (fun gs f => if isImageName f then groupInsert gs (dirName f) f else gs) []

/-- The groups as processed by the loop of lines 171-173: each group's image
list sorted (`image_files.sort()`). -/
def zipGroups (entries : List String) : List (String × List String) :=
  (imagesByFolder entries).map (fun g => (g.1, sortStrings g.2))

/-- Lookup of a key's image list in an association list (first match; keys are
unique by construction). -/
def groupOf : List (String × List String) → String → List String
  | [], _ => []
  | (k, fs) :: rest, key => if k = key then fs else groupOf rest key

/-! ## Output base names (lines 125-131 and 168-178) -/

/-- Lines 175-178: the archive's stem for the root group, otherwise the stem,
an underscore, and the internal directory with separators replaced. -/
def zipGroupName (zipBase dirNm : String) : String :=
  if dirNm = "" then zipBase else zipBase ++ "_" ++ replaceSep dirNm

/-- Lines 126-131: `os.path.relpath(folder, input_path)` is `"."` exactly for
the root folder, which is named after the input (already absolute and
normalised by `os.path.abspath` in `__init__`, so
`os.path.basename(os.path.normpath(...))` is `baseName`); other folders use
their relative path with separators replaced. -/
def dirGroupName (inputPath rel : String) : String :=
  if rel = "." then baseName inputPath else replaceSep rel

/-! ## Orchestration effects

Each orchestration function is modelled as an effect record: it receives the
listing of the output folder as it stands when the call starts (the only part
of the world the code reads back, through `os.path.exists` in
`_get_unique_pdf_path`) and returns what the call did.  `outFiles` is the
output-folder listing the call leaves behind (extended by each successful
`pdf.output`), `written` the successfully written PDFs, `attempted` the paths
passed to `pdf.output`, the three error lists the messages printed by the
bare handlers (lines 209-212 / 281-282, lines 221-222 / 289-290, and
lines 224-225), and `deleted` the source files removed by `os.remove`
(lines 229-233, 293-299).  `count` tracks the value the Python function
returns: it is incremented exactly where a `pdf.output` call succeeds
(line 220, and the `return True` of line 301 counted at lines 133-134).
Sequential execution is `GroupResult.seq`. -/

structure GroupResult where
  count : Nat
  outFiles : List String
  written : List String
  attempted : List String
  imgErrors : List String
  saveErrors : List String
  zipErrors : List String
  deleted : List String
deriving Repr, DecidableEq

/-- The empty effect on an output folder holding `outFiles0`. -/
def GroupResult.init (outFiles0 : List String) : GroupResult :=
  { count := 0, outFiles := outFiles0, written := [], attempted := [],
    imgErrors := [], saveErrors := [], zipErrors := [], deleted := [] }

/-- Sequential composition: `b` is the effect of code run after `a`, computed
from the folder listing `a.outFiles` that `a` left behind; counts add and the
event logs concatenate in execution order. -/
def GroupResult.seq (a b : GroupResult) : GroupResult :=
  { count := a.count + b.count, outFiles := b.outFiles,
    written := a.written ++ b.written, attempted := a.attempted ++ b.attempted,
    imgErrors := a.imgErrors ++ b.imgErrors, saveErrors := a.saveErrors ++ b.saveErrors,
    zipErrors := a.zipErrors ++ b.zipErrors, deleted := a.deleted ++ b.deleted }

/-- Oracle description of one ZIP archive: whether `zipfile.ZipFile` opens it,
its entry list, and which entries survive the per-image pipeline
(`z.open` + `Image.open` + `convert("RGB")` + JPEG re-encode) of the inner
`try` (lines 182-208). -/
structure ZipSpec where
  openOk : Bool
  entries : List String
  decodeOk : String → Bool

/-- The per-image loop shared by lines 181-212 and 255-282: each image is
tried independently; a success contributes a page (and, for loose files, a
deletable processed path), a failure only an error record, and the loop
continues either way.  Returns (processed, errors) in encounter order. -/
def processImages (decodeOk : String → Bool) : List String → List String × List String
  | [] => ([], [])
  | f :: fs =>
    let rest := processImages decodeOk fs
    if decodeOk f then (f :: rest.1, rest.2) else (rest.1, f :: rest.2)

/-- One iteration of the per-group loop of lines 171-222: sort the group, run
the per-image loop, and only when at least one image was processed
(`processed_any`, line 214) resolve a unique output path and attempt
`pdf.output`, counting a success (line 220) and recording a failure
(lines 221-222). -/
def processZipGroup (decodeOk writeOk : String → Bool) (outputDir zipBase : String)
    (outFiles : List String) (g : String × List String) : GroupResult :=
  let sorted := sortStrings g.2
  let res := processImages decodeOk sorted
  if res.1 = [] then { GroupResult.init outFiles with imgErrors := res.2 }
  else
    let path := getUniquePdfPath outFiles outputDir (zipGroupName zipBase g.1)
    if writeOk path then
      { count := 1, outFiles := path :: outFiles, written := [path], attempted := [path],
        imgErrors := res.2, saveErrors := [], zipErrors := [], deleted := [] }
    else
      { count := 0, outFiles := outFiles, written := [], attempted := [path],
        imgErrors := res.2, saveErrors := [path], zipErrors := [], deleted := [] }

/-- Lines 148-235, `_create_pdfs_from_zip`: an unopenable archive records one
error and contributes nothing (lines 224-226, returning before the deletion
block); an archive without accepted-extension entries returns early from
inside the `try` (lines 165-166), also skipping deletion; otherwise all groups
are processed in order and, when `delete_source` is set, the archive is
removed afterwards (lines 228-233) — unconditionally on the write outcomes. -/
def createPdfsFromZip (z : ZipSpec) (writeOk : String → Bool)
    (outputDir zipPath : String) (deleteSource : Bool)
    (outFiles : List String) : GroupResult :=
  if z.openOk then
    let groups := imagesByFolder z.entries
    if groups = [] then GroupResult.init outFiles
    else
      let zipBase := splitextBase (baseName zipPath)
      let d := groups.foldl
        (fun acc g =>
          acc.seq (processZipGroup z.decodeOk writeOk outputDir zipBase acc.outFiles g))
        (GroupResult.init outFiles)
      if deleteSource then { d with deleted := d.deleted ++ [zipPath] } else d
  else { GroupResult.init outFiles with zipErrors := [zipPath] }

/-- Lines 237-301, `_create_pdf_from_images`: list the folder, keep and sort
the accepted-extension names, return `False` straight away when there are none
(lines 250-251); run the per-image loop over the joined paths; then resolve a
unique output path and attempt `pdf.output` unconditionally (lines 284-291) —
there is no `processed_any` guard here; on success, and only then, delete the
processed source images when `delete_source` is set (lines 293-299). -/
def createPdfFromImages (decodeOk writeOk : String → Bool)
    (outputDir folderPath : String) (files : List String) (pdfName : String)
    (deleteSource : Bool) (outFiles : List String) : Bool × GroupResult :=
  let image_files := sortStrings (files.filter isImageName)
  if image_files = [] then (false, GroupResult.init outFiles)
  else
    let paths := image_files.map (fun f => folderPath ++ "/" ++ f)
    let res := processImages decodeOk paths
    let path := getUniquePdfPath outFiles outputDir pdfName
    if writeOk path then
      (true,
        { count := 1, outFiles := path :: outFiles, written := [path], attempted := [path],
          imgErrors := res.2, saveErrors := [], zipErrors := [],
          deleted := if deleteSource then res.1 else [] })
    else
      (false,
        { count := 0, outFiles := outFiles, written := [], attempted := [path],
          imgErrors := res.2, saveErrors := [path], zipErrors := [], deleted := [] })

/-! ## Bottom-up directory cleanup (lines 136-144) -/

/-- The direct entries (file and subdirectory names) of a directory in the
source tree, `none` when the directory does not exist. -/
def treeEntries : List (String × List String) → String → Option (List String)
  | [], _ => none
  | (k, es) :: rest, d => if k = d then some es else treeEntries rest d

/-- The effect of a successful `os.rmdir d`: the directory disappears and its
name is removed from its parent's entry list. -/
def rmdirRemove (tree : List (String × List String)) (d : String) :
    List (String × List String) :=
  (tree.filter (fun n => n.1 != d)).map
    (fun n => if n.1 = dirName d then (n.1, n.2.erase (baseName d)) else n)

/-- Lines 139-144: `os.rmdir` succeeds exactly on an existing empty directory;
in every other case it raises `OSError`, which the bare handler swallows
(`except OSError: pass`), recording nothing and leaving the tree unchanged. -/
def rmdirStep (tree : List (String × List String)) (d : String) :
    List (String × List String) :=
  match treeEntries tree d with
  | some [] => rmdirRemove tree d
  | _ => tree

/-- Lines 138-144: the removal attempts over `os.walk(input, topdown=False)`
order. -/
def cleanupPass (tree : List (String × List String)) (order : List String) :
    List (String × List String) :=
  order.foldl rmdirStep tree

/-! ## The top-level `convert` (lines 99-146) -/

/-- One folder yielded by `os.walk(input_path)` (lines 118-123): its absolute
path, its path relative to the input root (`os.path.relpath`, `"."` for the
root itself), and its directly contained file names (`os.listdir`). -/
structure FolderSpec where
  path : String
  rel : String
  files : List String

/-- Oracle description of a directory input: the ZIP files found by the walk
of lines 110-114 with their archive contents, the folders of the walk of
lines 118-123, and the directory tree state seen by the cleanup pass of
lines 136-144 (`bottomUpDirs` is the `topdown=False` walk order). -/
structure DirWorld where
  zips : List (String × ZipSpec)
  folders : List FolderSpec
  bottomUpDirs : List String
  tree : List (String × List String)

/-- The three-way case analysis of lines 102-108: an existing file whose
lowercased name ends in `.zip`, an existing directory, or anything else. -/
inductive InputKind
  | zipFile
  | directory
  | other
deriving Repr, DecidableEq

/-- Oracle description of one input: its kind, its (absolute, normalised)
path, the archive behind it when it is a ZIP file, the directory world behind
it when it is a directory, the decode oracle for loose image paths and the
write-success oracle for output paths. -/
structure World where
  kind : InputKind
  inputPath : String
  zip : ZipSpec
  dir : DirWorld
  decodeOk : String → Bool
  writeOk : String → Bool

/-- Lines 99-146, `PDFConverter.convert`: a ZIP input is handed whole to
`_create_pdfs_from_zip` and the method returns (lines 103-105, no cleanup
pass); a directory input processes every ZIP of the walk, then every folder
directly containing an accepted-extension file (lines 117-134), then — only
when `delete_source` is set — runs the bottom-up `os.rmdir` pass (lines
136-144); any other input falls through both cases and returns
`total_pdfs_created = 0` untouched. -/
def convert (w : World) (outputDir : String) (deleteSource : Bool)
    (outFiles0 : List String) : GroupResult × List (String × List String) :=
  match w.kind with
  | .zipFile =>
    (createPdfsFromZip w.zip w.writeOk outputDir w.inputPath deleteSource outFiles0,
      w.dir.tree)
  | .directory =>
    let d1 := w.dir.zips.foldl
      (fun acc z =>
        acc.seq (createPdfsFromZip z.2 w.writeOk outputDir z.1 deleteSource acc.outFiles))
      (GroupResult.init outFiles0)
    let withImages := w.dir.folders.filter (fun F => F.files.any isImageName)
    let d2 := withImages.foldl
      (fun acc F =>
        acc.seq ((createPdfFromImages w.decodeOk w.writeOk outputDir F.path F.files
          (dirGroupName w.inputPath F.rel) deleteSource acc.outFiles).2))
      d1
    let tree1 := if deleteSource then cleanupPass w.dir.tree w.dir.bottomUpDirs
                 else w.dir.tree
    (d2, tree1)
  | .other => (GroupResult.init outFiles0, w.dir.tree)

/-! ## Properties of the lexicographic order -/

theorem lexLe_refl (x : List Char) : lexLe x x = true := by
  induction x with
  | nil => rfl
  | cons a as ih => simp [lexLe, lt_irrefl, ih]

theorem lexLe_total (x y : List Char) : lexLe x y = true ∨ lexLe y x = true := by
  induction x generalizing y with
  | nil => left; rfl
  | cons a as ih =>
    cases y with
    | nil => right; rfl
    | cons b bs =>
      by_cases hab : a < b
      · left; simp [lexLe, hab]
      · by_cases hba : b < a
        · right; simp [lexLe, hba]
        · rcases ih bs with h | h
          · left; simp [lexLe, hab, hba, h]
          · right; simp [lexLe, hab, hba, h]

theorem lexLe_antisymm : ∀ {x y : List Char},
    lexLe x y = true → lexLe y x = true → x = y := by
  intro x
  induction x with
  | nil => intro y hxy hyx; cases y with
    | nil => rfl
    | cons b bs => simp [lexLe] at hyx
  | cons a as ih =>
    intro y hxy hyx
    cases y with
    | nil => simp [lexLe] at hxy
    | cons b bs =>
      by_cases hab : a < b
      · simp [lexLe, hab, lt_asymm hab] at hyx
      · by_cases hba : b < a
        · simp [lexLe, hab, hba] at hxy
        · have hab' : a = b := le_antisymm (not_lt.mp hba) (not_lt.mp hab)
          subst hab'
          simp only [lexLe, if_neg hab, if_neg hba] at hxy hyx
          exact congrArg (a :: ·) (ih hxy hyx)

theorem lexLe_trans : ∀ {x y z : List Char},
    lexLe x y = true → lexLe y z = true → lexLe x z = true := by
  intro x
  induction x with
  | nil => intro y z _ _; rfl
  | cons a as ih =>
    intro y z hxy hyz
    cases y with
    | nil => simp [lexLe] at hxy
    | cons b bs =>
      cases z with
      | nil => simp [lexLe] at hyz
      | cons c cs =>
        by_cases hbc : b < c
        · by_cases hab : a < b
          · simp [lexLe, lt_trans hab hbc]
          · by_cases hba : b < a
            · simp [lexLe, hab, hba] at hxy
            · have : a = b := le_antisymm (not_lt.mp hba) (not_lt.mp hab)
              subst this
              simp [lexLe, hbc]
        · by_cases hcb : c < b
          · simp [lexLe, hbc, hcb] at hyz
          · have hbc' : b = c := le_antisymm (not_lt.mp hcb) (not_lt.mp hbc)
            subst hbc'
            simp only [lexLe, if_neg hbc, if_neg hcb] at hyz
            by_cases hab : a < b
            · simp [lexLe, hab]
            · by_cases hba : b < a
              · simp [lexLe, hab, hba] at hxy
              · simp only [lexLe, if_neg hab, if_neg hba] at hxy ⊢
                exact ih hxy hyz

theorem strLe_refl (a : String) : strLe a a := lexLe_refl a.data

theorem strLe_total (a b : String) : strLe a b ∨ strLe b a := lexLe_total a.data b.data

theorem strLe_antisymm {a b : String} (h1 : strLe a b) (h2 : strLe b a) : a = b :=
  String.ext (lexLe_antisymm h1 h2)

theorem strLe_trans {a b c : String} (h1 : strLe a b) (h2 : strLe b c) : strLe a c :=
  lexLe_trans h1 h2

instance : IsAntisymm String strLe := ⟨fun _ _ => strLe_antisymm⟩

/-! ## Properties of `sortStrings` -/

theorem insertSorted_perm (a : String) (l : List String) :
    (insertSorted a l).Perm (a :: l) := by
  induction l with
  | nil => exact List.Perm.refl _
  | cons b bs ih =>
    by_cases h : strLeb a b
    · simp [insertSorted, h]
    · simp only [insertSorted, h, Bool.false_eq_true, if_false]
      exact (ih.cons b).trans (List.Perm.swap a b bs)

theorem sortStrings_perm (l : List String) : (sortStrings l).Perm l := by
  induction l with
  | nil => exact List.Perm.refl _
  | cons a as ih =>
    exact (insertSorted_perm a (sortStrings as)).trans (ih.cons a)

theorem mem_insertSorted {a c : String} {l : List String} :
    c ∈ insertSorted a l ↔ c = a ∨ c ∈ l := by
  constructor
  · intro h
    have := (insertSorted_perm a l).mem_iff.mp h
    simpa using this
  · intro h
    apply (insertSorted_perm a l).mem_iff.mpr
    simpa using h

theorem insertSorted_pairwise {a : String} {l : List String}
    (h : l.Pairwise strLe) : (insertSorted a l).Pairwise strLe := by
  induction l with
  | nil => simp [insertSorted, List.Pairwise]
  | cons b bs ih =>
    rcases List.pairwise_cons.mp h with ⟨hb, hbs⟩
    by_cases hab : strLeb a b
    · simp only [insertSorted, hab, if_true]
      refine List.pairwise_cons.mpr ⟨?_, h⟩
      intro c hc
      rcases List.mem_cons.mp hc with rfl | hc
      · exact hab
      · exact strLe_trans hab (hb c hc)
    · have hba : strLe b a := by
        rcases strLe_total a b with h' | h'
        · exact absurd h' hab
        · exact h'
      simp only [insertSorted, hab, Bool.false_eq_true, if_false]
      refine List.pairwise_cons.mpr ⟨?_, ih hbs⟩
      intro c hc
      rcases mem_insertSorted.mp hc with rfl | hc
      · exact hba
      · exact hb c hc

theorem sortStrings_pairwise (l : List String) : (sortStrings l).Pairwise strLe := by
  induction l with
  | nil => simp [sortStrings, List.Pairwise]
  | cons a as ih => exact insertSorted_pairwise ih

theorem sortStrings_eq_of_perm {l₁ l₂ : List String} (h : l₁.Perm l₂) :
    sortStrings l₁ = sortStrings l₂ := by
  refine List.eq_of_perm_of_sorted ?_ (sortStrings_pairwise l₁) (sortStrings_pairwise l₂)
  exact (sortStrings_perm l₁).trans (h.trans (sortStrings_perm l₂).symm)

/-! ## Properties of the ZIP grouping -/

theorem groupOf_groupInsert_same (gs : List (String × List String)) (k f : String) :
    groupOf (groupInsert gs k f) k = groupOf gs k ++ [f] := by
  induction gs with
  | nil => simp [groupInsert, groupOf]
  | cons g rest ih =>
    obtain ⟨k', fs'⟩ := g
    by_cases h : k' = k
    · subst h; simp [groupInsert, groupOf]
    · simp [groupInsert, groupOf, h, ih]

theorem groupOf_groupInsert_ne (gs : List (String × List String)) {k k' : String}
    (f : String) (h : k' ≠ k) : groupOf (groupInsert gs k f) k' = groupOf gs k' := by
  induction gs with
  | nil => simp [groupInsert, groupOf, Ne.symm h]
  | cons g rest ih =>
    obtain ⟨k'', fs''⟩ := g
    by_cases h2 : k'' = k
    · subst h2; simp [groupInsert, groupOf, Ne.symm h]
    · simp [groupInsert, groupOf, h2, ih]

theorem foldl_groupOf (entries : List String) :
    ∀ (acc : List (String × List String)) (key : String),
    groupOf (entries.foldl
        (fun gs f => if isImageName f then groupInsert gs (dirName f) f else gs) acc) key
      = groupOf acc key
        ++ entries.filter (fun f => isImageName f && (dirName f == key)) := by
  induction entries with
  | nil => intro acc key; simp
  | cons f fs ih =>
    intro acc key
    simp only [List.foldl_cons, List.filter_cons]
    by_cases himg : isImageName f
    · by_cases hdir : dirName f = key
      · subst hdir
        simp only [himg, if_true, Bool.true_and, beq_self_eq_true, if_true]
        rw [ih, groupOf_groupInsert_same, List.append_assoc, List.singleton_append]
      · have hbeq : (dirName f == key) = false := beq_eq_false_iff_ne.mpr hdir
        simp only [himg, if_true, Bool.true_and, hbeq, Bool.false_eq_true, if_false]
        rw [ih, groupOf_groupInsert_ne _ f (Ne.symm hdir)]
    · have : isImageName f = false := Bool.not_eq_true _ |>.mp himg
      simp only [this, Bool.false_and, if_false]
      exact ih acc key

theorem imagesByFolder_groupOf (entries : List String) (key : String) :
    groupOf (imagesByFolder entries) key
      = entries.filter (fun f => isImageName f && (dirName f == key)) := by
  have := foldl_groupOf entries [] key
  simpa [imagesByFolder, groupOf] using this

theorem keys_groupInsert (gs : List (String × List String)) (k f : String) :
    (groupInsert gs k f).map Prod.fst
      = if k ∈ gs.map Prod.fst then gs.map Prod.fst else gs.map Prod.fst ++ [k] := by
  induction gs with
  | nil => simp [groupInsert]
  | cons g rest ih =>
    obtain ⟨k', fs'⟩ := g
    by_cases h : k' = k
    · subst h; simp [groupInsert]
    · simp only [groupInsert, h, if_false, List.map_cons, List.mem_cons]
      rw [ih]
      by_cases h2 : k ∈ rest.map Prod.fst
      · simp [h2, Ne.symm h]
      · simp [h2, Ne.symm h]

theorem nodup_keys_groupInsert {gs : List (String × List String)} (k f : String)
    (h : (gs.map Prod.fst).Nodup) : ((groupInsert gs k f).map Prod.fst).Nodup := by
  rw [keys_groupInsert]
  by_cases h2 : k ∈ gs.map Prod.fst
  · simpa [h2] using h
  · simp only [h2, if_false]
    simp [List.nodup_append, h, h2]

theorem imagesByFolder_keys_nodup (entries : List String) :
    ((imagesByFolder entries).map Prod.fst).Nodup := by
  suffices h : ∀ acc : List (String × List String), (acc.map Prod.fst).Nodup →
      ((entries.foldl
        (fun gs f => if isImageName f then groupInsert gs (dirName f) f else gs) acc).map
          Prod.fst).Nodup by
    exact h [] (by simp)
  induction entries with
  | nil => intro acc hacc; simpa using hacc
  | cons f fs ih =>
    intro acc hacc
    simp only [List.foldl_cons]
    by_cases himg : isImageName f
    · simp only [himg, if_true]
      exact ih _ (nodup_keys_groupInsert _ f hacc)
    · have : isImageName f = false := Bool.not_eq_true _ |>.mp himg
      simp only [this, if_false]
      exact ih _ hacc

theorem groupOf_eq_of_mem {gs : List (String × List String)}
    (h : (gs.map Prod.fst).Nodup) {g : String × List String} (hg : g ∈ gs) :
    groupOf gs g.1 = g.2 := by
  induction gs with
  | nil => cases hg
  | cons p rest ih =>
    obtain ⟨k, fs⟩ := p
    rcases List.mem_cons.mp hg with rfl | hg'
    · simp [groupOf]
    · have hk : k ≠ g.1 := by
        intro hkg
        have : g.1 ∈ rest.map Prod.fst := List.mem_map.mpr ⟨g, hg', rfl⟩
        rw [List.map_cons, List.nodup_cons] at h
        exact h.1 (hkg ▸ this)
      simp only [groupOf, hk, if_false]
      rw [List.map_cons, List.nodup_cons] at h
      exact ih h.2 hg'

theorem groupInsert_nonempty {gs : List (String × List String)} {k f : String}
    (h : ∀ g ∈ gs, g.2 ≠ []) : ∀ g ∈ groupInsert gs k f, g.2 ≠ [] := by
  induction gs with
  | nil =>
    intro g hg
    simp only [groupInsert, List.mem_singleton] at hg
    subst hg; simp
  | cons p rest ih =>
    obtain ⟨k', fs'⟩ := p
    intro g hg
    by_cases hk : k' = k
    · subst hk
      simp only [groupInsert, eq_self_iff_true, if_true, List.mem_cons] at hg
      rcases hg with hg1 | hg'
      · rw [hg1]; simp
      · exact h g (List.mem_cons_of_mem _ hg')
    · simp only [groupInsert, hk, if_false, List.mem_cons] at hg
      rcases hg with hg1 | hg'
      · rw [hg1]
        exact h ⟨k', fs'⟩ (List.mem_cons_self _ _)
      · exact ih (fun q hq => h q (List.mem_cons_of_mem _ hq)) g hg'

theorem imagesByFolder_nonempty (entries : List String) :
    ∀ g ∈ imagesByFolder entries, g.2 ≠ [] := by
  suffices h : ∀ acc : List (String × List String), (∀ g ∈ acc, g.2 ≠ []) →
      ∀ g ∈ (entries.foldl
        (fun gs f => if isImageName f then groupInsert gs (dirName f) f else gs) acc),
        g.2 ≠ [] by
    exact h [] (by simp)
  induction entries with
  | nil => intro acc hacc; simpa using hacc
  | cons f fs ih =>
    intro acc hacc
    simp only [List.foldl_cons]
    by_cases himg : isImageName f
    · simp only [himg, if_true]
      exact ih _ (groupInsert_nonempty hacc)
    · have : isImageName f = false := Bool.not_eq_true _ |>.mp himg
      simp only [this, if_false]
      exact ih _ hacc

theorem groupOf_ne_nil_mem {gs : List (String × List String)} {key : String}
    (h : groupOf gs key ≠ []) : key ∈ gs.map Prod.fst := by
  induction gs with
  | nil => simp [groupOf] at h
  | cons p rest ih =>
    obtain ⟨k, fs⟩ := p
    by_cases hk : k = key
    · subst hk; simp
    · simp only [groupOf, hk, if_false] at h
      exact List.mem_cons_of_mem _ (ih h)

/-! ## Properties of the decimal rendering and of `_get_unique_pdf_path` -/

theorem toDigitsRev_ne_nil (fuel n : Nat) (h : 0 < fuel) : toDigitsRev fuel n ≠ [] := by
  cases fuel with
  | zero => omega
  | succ fuel =>
    simp only [toDigitsRev]
    by_cases hn : n < 10 <;> simp [hn]

theorem toDigitsRev_lt_ten : ∀ (fuel n : Nat), ∀ d ∈ toDigitsRev fuel n, d < 10 := by
  intro fuel
  induction fuel with
  | zero => intro n d hd; simp [toDigitsRev] at hd
  | succ fuel ih =>
    intro n d hd
    simp only [toDigitsRev] at hd
    by_cases hn : n < 10
    · rw [if_pos hn] at hd
      simp only [List.mem_singleton] at hd
      omega
    · rw [if_neg hn] at hd
      rcases List.mem_cons.mp hd with rfl | hd'
      · exact Nat.mod_lt _ (by norm_num)
      · exact ih _ d hd'

theorem fromDigitsRev_toDigitsRev : ∀ (fuel n : Nat), n < 10 ^ fuel →
    fromDigitsRev (toDigitsRev fuel n) = n := by
  intro fuel
  induction fuel with
  | zero =>
    intro n h
    simp only [pow_zero, Nat.lt_one_iff] at h
    subst h; rfl
  | succ fuel ih =>
    intro n h
    rw [toDigitsRev]
    by_cases hn : n < 10
    · rw [if_pos hn]; simp [fromDigitsRev]
    · rw [if_neg hn]
      simp only [fromDigitsRev]
      rw [ih (n / 10) (by
        rw [pow_succ] at h
        exact (Nat.div_lt_iff_lt_mul (by norm_num)).mpr h)]
      exact Nat.mod_add_div n 10

theorem digitChar_inj {d e : Nat} (hd : d < 10) (he : e < 10)
    (h : digitChar d = digitChar e) : d = e := by
  revert h
  interval_cases d <;> interval_cases e <;> decide

theorem map_digitChar_inj : ∀ {l1 l2 : List Nat}, (∀ d ∈ l1, d < 10) →
    (∀ d ∈ l2, d < 10) → l1.map digitChar = l2.map digitChar → l1 = l2 := by
  intro l1
  induction l1 with
  | nil =>
    intro l2 _ _ h
    cases l2 with
    | nil => rfl
    | cons e es => simp at h
  | cons d ds ih =>
    intro l2 h1 h2 h
    cases l2 with
    | nil => simp at h
    | cons e es =>
      simp only [List.map_cons, List.cons.injEq] at h
      have hde : d = e :=
        digitChar_inj (h1 d (List.mem_cons_self _ _)) (h2 e (List.mem_cons_self _ _)) h.1
      have hes : ds = es :=
        ih (fun x hx => h1 x (List.mem_cons_of_mem _ hx))
          (fun x hx => h2 x (List.mem_cons_of_mem _ hx)) h.2
      rw [hde, hes]

theorem lt_ten_pow_succ (n : Nat) : n < 10 ^ (n + 1) :=
  calc n < 2 ^ n := Nat.lt_two_pow n
    _ ≤ 10 ^ n := Nat.pow_le_pow_left (by norm_num) n
    _ ≤ 10 ^ (n + 1) := Nat.pow_le_pow_right (by norm_num) (Nat.le_succ n)

theorem natToDecimal_inj : Function.Injective natToDecimal := by
  intro m n h
  have hdata : ((toDigitsRev (m + 1) m).map digitChar).reverse
      = ((toDigitsRev (n + 1) n).map digitChar).reverse := congrArg String.data h
  have hmap := List.reverse_injective hdata
  have hdig : toDigitsRev (m + 1) m = toDigitsRev (n + 1) n :=
    map_digitChar_inj (toDigitsRev_lt_ten _ m) (toDigitsRev_lt_ten _ n) hmap
  have hm := fromDigitsRev_toDigitsRev (m + 1) m (lt_ten_pow_succ m)
  have hn := fromDigitsRev_toDigitsRev (n + 1) n (lt_ten_pow_succ n)
  rw [← hm, ← hn, hdig]

theorem natToDecimal_length_pos (n : Nat) : 0 < (natToDecimal n).data.length := by
  simp only [natToDecimal, List.length_reverse, List.length_map]
  exact List.length_pos.mpr (toDigitsRev_ne_nil (n + 1) n (Nat.succ_pos n))

theorem pdfCandidate_inj (dir base : String) :
    Function.Injective (pdfCandidate dir base) := by
  intro m n h
  match m, n with
  | 0, 0 => rfl
  | 0, n + 1 =>
    exfalso
    have := congrArg (fun s : String => s.data.length) h
    simp only [pdfCandidate, String.data_append, List.length_append,
      List.length_cons, List.length_nil] at this
    have hp := natToDecimal_length_pos (n + 1)
    omega
  | m + 1, 0 =>
    exfalso
    have := congrArg (fun s : String => s.data.length) h
    simp only [pdfCandidate, String.data_append, List.length_append,
      List.length_cons, List.length_nil] at this
    have hp := natToDecimal_length_pos (m + 1)
    omega
  | m + 1, n + 1 =>
    have hdata := congrArg String.data h
    simp only [pdfCandidate, String.data_append, List.append_assoc] at hdata
    have h1 := List.append_cancel_left hdata
    have h2 := List.append_cancel_left h1
    have h3 := List.append_cancel_left h2
    have h4 := List.append_cancel_left h3
    have h5 := List.append_cancel_right h4
    have := natToDecimal_inj (String.ext h5)
    omega

theorem exists_free_candidate (fs : List String) (dir base : String) :
    ∃ j, j ≤ fs.length ∧ pdfCandidate dir base j ∉ fs := by
  by_contra hcon
  push_neg at hcon
  have hsub : ((List.range (fs.length + 1)).map (pdfCandidate dir base)) ⊆ fs := by
    intro x hx
    rcases List.mem_map.mp hx with ⟨j, hj, rfl⟩
    exact hcon j (Nat.lt_succ_iff.mp (List.mem_range.mp hj))
  have hnd : ((List.range (fs.length + 1)).map (pdfCandidate dir base)).Nodup :=
    (List.nodup_range _).map (pdfCandidate_inj dir base)
  have hcard : ((List.range (fs.length + 1)).map (pdfCandidate dir base)).toFinset.card
      = fs.length + 1 := by
    rw [List.toFinset_card_of_nodup hnd]
    simp
  have hss : ((List.range (fs.length + 1)).map (pdfCandidate dir base)).toFinset
      ⊆ fs.toFinset := by
    intro x hx
    exact List.mem_toFinset.mpr (hsub (List.mem_toFinset.mp hx))
  have := Finset.card_le_card hss
  have := List.toFinset_card_le fs
  omega

theorem getUniquePdfPathAux_spec (fs : List String) (dir base : String) :
    ∀ (fuel counter : Nat),
    (∃ j, j < fuel ∧ pdfCandidate dir base (counter + j) ∉ fs) →
    ∃ n, getUniquePdfPathAux fs dir base counter fuel = pdfCandidate dir base n ∧
      counter ≤ n ∧ pdfCandidate dir base n ∉ fs ∧
      ∀ m, counter ≤ m → m < n → pdfCandidate dir base m ∈ fs := by
  intro fuel
  induction fuel with
  | zero =>
    rintro counter ⟨j, hj, _⟩
    omega
  | succ fuel ih =>
    rintro counter ⟨j, hj, hfree⟩
    by_cases hc : pdfCandidate dir base counter ∈ fs
    · have hj0 : j ≠ 0 := by
        rintro rfl
        rw [Nat.add_zero] at hfree
        exact hfree hc
      obtain ⟨n, h1, h2, h3, h4⟩ := ih (counter + 1)
        ⟨j - 1, by omega, by
          have hcj : counter + 1 + (j - 1) = counter + j := by omega
          rw [hcj]; exact hfree⟩
      refine ⟨n, ?_, by omega, h3, ?_⟩
      · simp only [getUniquePdfPathAux, if_pos hc]
        exact h1
      · intro m hm1 hm2
        rcases eq_or_lt_of_le hm1 with rfl | hm
        · exact hc
        · exact h4 m (by omega) hm2
    · refine ⟨counter, ?_, le_refl _, hc, ?_⟩
      · simp only [getUniquePdfPathAux, if_neg hc]
      · intro m hm1 hm2
        omega

/-! ## Claim C4 -/

/-- C4: for every base name and every state `fs` of the output directory,
`_get_unique_pdf_path` returns the candidate `{outputDir}/{baseName}.pdf`
(index 0) when it does not exist, and otherwise the candidate
`{outputDir}/{baseName} (n).pdf` for the least `n ≥ 1` that does not exist:
the returned path is the candidate of the least free index, so it never
exists at call time, and — the function being a pure function of `fs`, `dir`
and `base` — two calls with the same arguments and no intervening file
creation return the same path. -/
theorem C4_get_unique_pdf_path_spec (fs : List String) (dir base : String) :
    ∃ n, getUniquePdfPath fs dir base = pdfCandidate dir base n ∧
      pdfCandidate dir base n ∉ fs ∧
      ∀ m, m < n → pdfCandidate dir base m ∈ fs := by
  obtain ⟨j, hj, hfree⟩ := exists_free_candidate fs dir base
  obtain ⟨n, h1, _, h3, h4⟩ := getUniquePdfPathAux_spec fs dir base (fs.length + 1) 0
    ⟨j, by omega, by simpa using hfree⟩
  exact ⟨n, h1, h3, fun m hm => h4 m (Nat.zero_le m) hm⟩

/-! ## Claim C5 -/

/-- C5: for the fixed margin 10 (`pageMargin`) and positive image pixel
dimensions, the scale ratio is the minimum of the two axis ratios, the placed
rectangle lies within the margin box, the aspect ratio is preserved, and the
image is centred on the page. -/
theorem C5_layout_spec (pageW pageH : ℚ) (imgW imgH : Nat)
    (hw : 0 < imgW) (hh : 0 < imgH)
    (hpw : 2 * pageMargin < pageW) (hph : 2 * pageMargin < pageH) :
    (computeLayout pageW pageH pageMargin imgW imgH).ratio
      = min ((pageW - 2 * pageMargin) / (imgW : ℚ))
            ((pageH - 2 * pageMargin) / (imgH : ℚ))
    ∧ pageMargin ≤ (computeLayout pageW pageH pageMargin imgW imgH).x
    ∧ (computeLayout pageW pageH pageMargin imgW imgH).x
        + (computeLayout pageW pageH pageMargin imgW imgH).newW ≤ pageW - pageMargin
    ∧ pageMargin ≤ (computeLayout pageW pageH pageMargin imgW imgH).y
    ∧ (computeLayout pageW pageH pageMargin imgW imgH).y
        + (computeLayout pageW pageH pageMargin imgW imgH).newH ≤ pageH - pageMargin
    ∧ (computeLayout pageW pageH pageMargin imgW imgH).newW
        / (computeLayout pageW pageH pageMargin imgW imgH).newH
        = (imgW : ℚ) / (imgH : ℚ)
    ∧ (computeLayout pageW pageH pageMargin imgW imgH).x
        = (pageW - (computeLayout pageW pageH pageMargin imgW imgH).newW) / 2
    ∧ (computeLayout pageW pageH pageMargin imgW imgH).y
        = (pageH - (computeLayout pageW pageH pageMargin imgW imgH).newH) / 2 := by
  have hw' : (0 : ℚ) < (imgW : ℚ) := by exact_mod_cast hw
  have hh' : (0 : ℚ) < (imgH : ℚ) := by exact_mod_cast hh
  have hL : computeLayout pageW pageH pageMargin imgW imgH =
      { ratio := min ((pageW - 2 * pageMargin) / (imgW : ℚ))
                     ((pageH - 2 * pageMargin) / (imgH : ℚ)),
        newW := (imgW : ℚ) * min ((pageW - 2 * pageMargin) / (imgW : ℚ))
                     ((pageH - 2 * pageMargin) / (imgH : ℚ)),
        newH := (imgH : ℚ) * min ((pageW - 2 * pageMargin) / (imgW : ℚ))
                     ((pageH - 2 * pageMargin) / (imgH : ℚ)),
        x := (pageW - (imgW : ℚ) * min ((pageW - 2 * pageMargin) / (imgW : ℚ))
                     ((pageH - 2 * pageMargin) / (imgH : ℚ))) / 2,
        y := (pageH - (imgH : ℚ) * min ((pageW - 2 * pageMargin) / (imgW : ℚ))
                     ((pageH - 2 * pageMargin) / (imgH : ℚ))) / 2 } := rfl
  rw [hL]
  set r := min ((pageW - 2 * pageMargin) / (imgW : ℚ))
               ((pageH - 2 * pageMargin) / (imgH : ℚ)) with hr
  have hrA : r ≤ (pageW - 2 * pageMargin) / (imgW : ℚ) := min_le_left _ _
  have hrB : r ≤ (pageH - 2 * pageMargin) / (imgH : ℚ) := min_le_right _ _
  have hrpos : 0 < r := by
    apply lt_min
    · exact div_pos (by linarith) hw'
    · exact div_pos (by linarith) hh'
  have key1 : (imgW : ℚ) * r ≤ pageW - 2 * pageMargin := by
    calc (imgW : ℚ) * r ≤ (imgW : ℚ) * ((pageW - 2 * pageMargin) / (imgW : ℚ)) :=
          mul_le_mul_of_nonneg_left hrA (le_of_lt hw')
      _ = pageW - 2 * pageMargin := by
          rw [mul_comm]
          exact div_mul_cancel₀ _ hw'.ne'
  have key2 : (imgH : ℚ) * r ≤ pageH - 2 * pageMargin := by
    calc (imgH : ℚ) * r ≤ (imgH : ℚ) * ((pageH - 2 * pageMargin) / (imgH : ℚ)) :=
          mul_le_mul_of_nonneg_left hrB (le_of_lt hh')
      _ = pageH - 2 * pageMargin := by
          rw [mul_comm]
          exact div_mul_cancel₀ _ hh'.ne'
  refine ⟨rfl, by linarith, by linarith, by linarith, by linarith, ?_, rfl, rfl⟩
  exact mul_div_mul_right _ _ hrpos.ne'

/-- Witness for C5 at A4 portrait pages and a 100×200 pixel image. -/
theorem C5_layout_spec_witness :
    (computeLayout 210 297 pageMargin 100 200).ratio
      = min ((210 - 2 * pageMargin) / (100 : ℚ)) ((297 - 2 * pageMargin) / (200 : ℚ))
    ∧ pageMargin ≤ (computeLayout 210 297 pageMargin 100 200).x
    ∧ (computeLayout 210 297 pageMargin 100 200).x
        + (computeLayout 210 297 pageMargin 100 200).newW ≤ 210 - pageMargin
    ∧ pageMargin ≤ (computeLayout 210 297 pageMargin 100 200).y
    ∧ (computeLayout 210 297 pageMargin 100 200).y
        + (computeLayout 210 297 pageMargin 100 200).newH ≤ 297 - pageMargin
    ∧ (computeLayout 210 297 pageMargin 100 200).newW
        / (computeLayout 210 297 pageMargin 100 200).newH = (100 : ℚ) / (200 : ℚ)
    ∧ (computeLayout 210 297 pageMargin 100 200).x
        = (210 - (computeLayout 210 297 pageMargin 100 200).newW) / 2
    ∧ (computeLayout 210 297 pageMargin 100 200).y
        = (297 - (computeLayout 210 297 pageMargin 100 200).newH) / 2 :=
  C5_layout_spec 210 297 100 200 (by norm_num) (by norm_num)
    (by norm_num [pageMargin]) (by norm_num [pageMargin])

/-! ## Claim C6 -/

/-- C6: the page orientation is `"L"` (landscape) exactly when the image's
pixel width strictly exceeds its height, and a square image gets `"P"`
(portrait). -/
theorem C6_orientation_rule (w h : Nat) :
    (orientationOf w h = "L" ↔ h < w) ∧ (w = h → orientationOf w h = "P") := by
  constructor
  · constructor
    · intro hL
      by_contra hc
      have hP : orientationOf w h = "P" := by
        simp only [orientationOf, gt_iff_lt, if_neg hc]
      rw [hP] at hL
      exact absurd hL (by decide)
    · intro hlt
      simp only [orientationOf, gt_iff_lt, if_pos hlt]
  · intro he
    simp only [orientationOf, gt_iff_lt, if_neg (by omega : ¬ h < w)]

/-- Witness for C6: a square image is portrait, a wide image is landscape. -/
theorem C6_orientation_rule_witness :
    orientationOf 5 5 = "P" ∧ orientationOf 7 3 = "L" :=
  ⟨(C6_orientation_rule 5 5).2 rfl, (C6_orientation_rule 7 3).1.mpr (by norm_num)⟩

/-! ## Claim C7 -/

theorem sortStrings_ne_nil {l : List String} (h : l ≠ []) : sortStrings l ≠ [] := by
  intro hc
  apply h
  have h2 := (sortStrings_perm l).symm
  rw [hc] at h2
  exact h2.eq_nil

theorem zipGroups_keys (entries : List String) :
    (zipGroups entries).map Prod.fst = (imagesByFolder entries).map Prod.fst := by
  simp [zipGroups, List.map_map, Function.comp]

/-- C7: ZIP group discovery keeps exactly the accepted-extension entries,
partitions them by directory component (the empty component being the root
group), creates no empty group, keys are pairwise distinct, and each group's
image list is the lexicographically sorted filter of the entry list — hence
independent of the order in which entries appear in the archive (final
conjunct: permuting the entry list leaves every group's list unchanged). -/
theorem C7_zip_group_discovery (entries : List String) :
    (∀ g ∈ zipGroups entries,
        g.2 = sortStrings (entries.filter (fun f => isImageName f && (dirName f == g.1)))
        ∧ g.2 ≠ [])
    ∧ ((zipGroups entries).map Prod.fst).Nodup
    ∧ (∀ f ∈ entries, isImageName f → dirName f ∈ (zipGroups entries).map Prod.fst)
    ∧ (∀ entries', entries.Perm entries' →
        ∀ g ∈ zipGroups entries, ∀ g' ∈ zipGroups entries', g.1 = g'.1 → g.2 = g'.2) := by
  have hform : ∀ g ∈ zipGroups entries,
      g.2 = sortStrings (entries.filter (fun f => isImageName f && (dirName f == g.1)))
      ∧ g.2 ≠ [] := by
    intro g hg
    rcases List.mem_map.mp hg with ⟨g0, hg0, rfl⟩
    have hkey : groupOf (imagesByFolder entries) g0.1 = g0.2 :=
      groupOf_eq_of_mem (imagesByFolder_keys_nodup entries) hg0
    have hfilter := imagesByFolder_groupOf entries g0.1
    constructor
    · simp only
      rw [← hkey, hfilter]
    · exact sortStrings_ne_nil (imagesByFolder_nonempty entries g0 hg0)
  refine ⟨hform, ?_, ?_, ?_⟩
  · rw [zipGroups_keys]
    exact imagesByFolder_keys_nodup entries
  · intro f hf him
    rw [zipGroups_keys]
    apply groupOf_ne_nil_mem
    rw [imagesByFolder_groupOf]
    intro hc
    have : f ∈ entries.filter (fun x => isImageName x && (dirName x == dirName f)) :=
      List.mem_filter.mpr ⟨hf, by simp [him]⟩
    rw [hc] at this
    cases this
  · intro entries' hperm g hg g' hg' hkey
    have h1 := (hform g hg).1
    have hform' : g'.2 = sortStrings
        (entries'.filter (fun f => isImageName f && (dirName f == g'.1))) := by
      rcases List.mem_map.mp hg' with ⟨g0, hg0, rfl⟩
      have hk : groupOf (imagesByFolder entries') g0.1 = g0.2 :=
        groupOf_eq_of_mem (imagesByFolder_keys_nodup entries') hg0
      simp only
      rw [← hk, imagesByFolder_groupOf]
    rw [h1, hform', ← hkey]
    exact sortStrings_eq_of_perm
      (hperm.filter (fun f => isImageName f && (dirName f == g.1)))

/-- Witness for C7: a concrete entry list whose root and `album` groups come
out sorted and non-empty notwithstanding the archive order. -/
theorem C7_zip_group_discovery_witness :
    ("album", ["album/a.png", "album/b.png"])
        ∈ zipGroups ["album/b.png", "A.PNG", "album/a.png", "notes.txt"]
    ∧ (["album/a.png", "album/b.png"] : List String)
        = sortStrings ((["album/b.png", "A.PNG", "album/a.png", "notes.txt"] :
            List String).filter (fun f => isImageName f && (dirName f == "album"))) :=
  ⟨by decide,
    ((C7_zip_group_discovery ["album/b.png", "A.PNG", "album/a.png", "notes.txt"]).1
      ("album", ["album/a.png", "album/b.png"]) (by decide)).1⟩

/-! ## Properties of the orchestration -/

theorem processImages_eq (decodeOk : String → Bool) (l : List String) :
    processImages decodeOk l
      = (l.filter decodeOk, l.filter (fun f => !(decodeOk f))) := by
  induction l with
  | nil => rfl
  | cons f fs ih =>
    simp only [processImages, ih, List.filter_cons]
    by_cases h : decodeOk f <;> simp [h]

theorem init_seq (ofs : List String) (d : GroupResult) :
    (GroupResult.init ofs).seq d = d := by
  simp [GroupResult.init, GroupResult.seq]

theorem seq_count_written {a b : GroupResult} (ha : a.count = a.written.length)
    (hb : b.count = b.written.length) :
    (a.seq b).count = (a.seq b).written.length := by
  simp [GroupResult.seq, ha, hb]

theorem processZipGroup_count_written (decodeOk writeOk : String → Bool)
    (outputDir zipBase : String) (outFiles : List String) (g : String × List String) :
    (processZipGroup decodeOk writeOk outputDir zipBase outFiles g).count
      = (processZipGroup decodeOk writeOk outputDir zipBase outFiles g).written.length := by
  unfold processZipGroup
  by_cases h1 : (processImages decodeOk (sortStrings g.2)).1 = []
  · simp [h1, GroupResult.init]
  · simp only [h1, if_false]
    by_cases h2 : writeOk (getUniquePdfPath outFiles outputDir (zipGroupName zipBase g.1))
    · simp [h2]
    · simp [h2]

theorem foldl_seq_count_written {α : Type} (f : List String → α → GroupResult)
    (hf : ∀ ofs x, (f ofs x).count = (f ofs x).written.length) (l : List α) :
    ∀ acc : GroupResult, acc.count = acc.written.length →
    (l.foldl (fun acc x => acc.seq (f acc.outFiles x)) acc).count
      = (l.foldl (fun acc x => acc.seq (f acc.outFiles x)) acc).written.length := by
  induction l with
  | nil => intro acc h; exact h
  | cons x xs ih =>
    intro acc h
    exact ih _ (seq_count_written h (hf _ _))

theorem createPdfsFromZip_count_written (z : ZipSpec) (writeOk : String → Bool)
    (outputDir zipPath : String) (deleteSource : Bool) (outFiles : List String) :
    (createPdfsFromZip z writeOk outputDir zipPath deleteSource outFiles).count
      = (createPdfsFromZip z writeOk outputDir zipPath deleteSource outFiles).written.length := by
  unfold createPdfsFromZip
  by_cases hopen : z.openOk
  · simp only [hopen, if_true]
    by_cases hg : imagesByFolder z.entries = []
    · simp [hg, GroupResult.init]
    · simp only [hg, if_false]
      have hfold := foldl_seq_count_written
        (fun ofs g => processZipGroup z.decodeOk writeOk outputDir
          (splitextBase (baseName zipPath)) ofs g)
        (fun ofs g => processZipGroup_count_written _ _ _ _ ofs g)
        (imagesByFolder z.entries) (GroupResult.init outFiles) rfl
      by_cases hdel : deleteSource
      · simp only [hdel, if_true]
        simpa using hfold
      · simp only [hdel, if_false]
        simpa using hfold
  · simp [hopen, GroupResult.init]

theorem createPdfFromImages_count_written (decodeOk writeOk : String → Bool)
    (outputDir folderPath : String) (files : List String) (pdfName : String)
    (deleteSource : Bool) (outFiles : List String) :
    (createPdfFromImages decodeOk writeOk outputDir folderPath files pdfName
        deleteSource outFiles).2.count
      = (createPdfFromImages decodeOk writeOk outputDir folderPath files pdfName
        deleteSource outFiles).2.written.length := by
  unfold createPdfFromImages
  by_cases h1 : sortStrings (files.filter isImageName) = []
  · simp [h1, GroupResult.init]
  · simp only [h1, if_false]
    by_cases h2 : writeOk (getUniquePdfPath outFiles outputDir pdfName)
    · simp [h2]
    · simp [h2]

theorem convert_count_written (w : World) (outputDir : String) (deleteSource : Bool)
    (outFiles0 : List String) :
    (convert w outputDir deleteSource outFiles0).1.count
      = (convert w outputDir deleteSource outFiles0).1.written.length := by
  cases hk : w.kind with
  | zipFile =>
    simp only [convert, hk]
    exact createPdfsFromZip_count_written _ _ _ _ _ _
  | directory =>
    simp only [convert, hk]
    have hz := foldl_seq_count_written
      (fun (ofs : List String) (z : String × ZipSpec) =>
        createPdfsFromZip z.2 w.writeOk outputDir z.1 deleteSource ofs)
      (fun ofs z => createPdfsFromZip_count_written _ _ _ _ _ ofs)
      w.dir.zips (GroupResult.init outFiles0) rfl
    exact foldl_seq_count_written
      (fun (ofs : List String) (F : FolderSpec) =>
        (createPdfFromImages w.decodeOk w.writeOk outputDir F.path F.files
          (dirGroupName w.inputPath F.rel) deleteSource ofs).2)
      (fun ofs F => createPdfFromImages_count_written _ _ _ _ _ _ _ ofs)
      _ _ hz
  | other =>
    simp only [convert, hk]
    rfl

theorem seq_zipErrors_shift (b d : GroupResult) (X : List String) :
    ({ b with zipErrors := X ++ b.zipErrors } : GroupResult).seq d
      = { b.seq d with zipErrors := X ++ (b.seq d).zipErrors } := by
  simp [GroupResult.seq, List.append_assoc]

theorem foldl_seq_zipErrors_shift {α : Type} (f : List String → α → GroupResult)
    (l : List α) : ∀ (b : GroupResult) (X : List String),
    l.foldl (fun acc x => acc.seq (f acc.outFiles x))
        { b with zipErrors := X ++ b.zipErrors }
      = { l.foldl (fun acc x => acc.seq (f acc.outFiles x)) b with
          zipErrors := X ++ (l.foldl (fun acc x => acc.seq (f acc.outFiles x)) b).zipErrors } := by
  induction l with
  | nil => intro b X; rfl
  | cons x xs ih =>
    intro b X
    show xs.foldl (fun acc x => acc.seq (f acc.outFiles x))
        (({ b with zipErrors := X ++ b.zipErrors } : GroupResult).seq (f b.outFiles x)) = _
    rw [seq_zipErrors_shift b (f b.outFiles x) X]
    exact ih (b.seq (f b.outFiles x)) X

/-! ## Claim C9 -/

/-- C9: `convert` returns exactly the number of PDFs successfully written
during the run (first conjunct); the per-image loop isolates failures — the
processed images are exactly the decodable ones and the failures only add
error records, so images after a failure are still processed (second
conjunct); a ZIP that fails to open yields the empty effect apart from one
recorded error — zero PDFs, nothing written, nothing deleted (third
conjunct); and removing such a ZIP from the front of a directory input's
archive list changes neither the returned count nor the written files of the
whole run — the rest of the input is processed as if the bad archive were not
there (fourth conjunct).  No exception escapes: every failure oracle is
handled inside these total functions, mirroring the bare `except` handlers. -/
theorem C9_convert_returns_count_and_contains_errors :
    (∀ (w : World) (outputDir : String) (deleteSource : Bool) (outFiles0 : List String),
      (convert w outputDir deleteSource outFiles0).1.count
        = (convert w outputDir deleteSource outFiles0).1.written.length)
    ∧ (∀ (decodeOk : String → Bool) (l : List String),
        processImages decodeOk l = (l.filter decodeOk, l.filter (fun f => !(decodeOk f))))
    ∧ (∀ (z : ZipSpec) (writeOk : String → Bool) (outputDir zipPath : String)
        (deleteSource : Bool) (outFiles : List String), z.openOk = false →
        createPdfsFromZip z writeOk outputDir zipPath deleteSource outFiles
          = { GroupResult.init outFiles with zipErrors := [zipPath] })
    ∧ (∀ (w : World) (outputDir : String) (deleteSource : Bool) (outFiles0 : List String)
        (p : String) (bad : ZipSpec) (rest : List (String × ZipSpec)),
        w.kind = .directory → bad.openOk = false → w.dir.zips = (p, bad) :: rest →
        (convert w outputDir deleteSource outFiles0).1.count
          = (convert { w with dir := { w.dir with zips := rest } }
              outputDir deleteSource outFiles0).1.count
        ∧ (convert w outputDir deleteSource outFiles0).1.written
          = (convert { w with dir := { w.dir with zips := rest } }
              outputDir deleteSource outFiles0).1.written) := by
  refine ⟨convert_count_written, processImages_eq, ?_, ?_⟩
  · intro z writeOk outputDir zipPath deleteSource outFiles hz
    unfold createPdfsFromZip
    simp [hz]
  · intro w outputDir deleteSource outFiles0 p bad rest hkind hbad hzips
    have hbadrun : createPdfsFromZip bad w.writeOk outputDir p deleteSource
        (GroupResult.init outFiles0).outFiles
        = { GroupResult.init outFiles0 with zipErrors := [p] } := by
      unfold createPdfsFromZip
      simp [hbad, GroupResult.init]
    have hshape : ((GroupResult.init outFiles0).seq
          (createPdfsFromZip bad w.writeOk outputDir p deleteSource
            (GroupResult.init outFiles0).outFiles))
        = { GroupResult.init outFiles0 with
            zipErrors := [p] ++ (GroupResult.init outFiles0).zipErrors } := by
      rw [init_seq, hbadrun]
      rfl
    simp only [convert, hkind, hzips, List.foldl_cons]
    rw [hshape]
    rw [foldl_seq_zipErrors_shift
      (fun (ofs : List String) (z : String × ZipSpec) =>
        createPdfsFromZip z.2 w.writeOk outputDir z.1 deleteSource ofs)
      rest (GroupResult.init outFiles0) [p]]
    rw [foldl_seq_zipErrors_shift
      (fun (ofs : List String) (F : FolderSpec) =>
        (createPdfFromImages w.decodeOk w.writeOk outputDir F.path F.files
          (dirGroupName w.inputPath F.rel) deleteSource ofs).2)
      (w.dir.folders.filter (fun F => F.files.any isImageName))
      (rest.foldl (fun acc z =>
        acc.seq (createPdfsFromZip z.2 w.writeOk outputDir z.1 deleteSource acc.outFiles))
        (GroupResult.init outFiles0)) [p]]
    exact ⟨rfl, rfl⟩

/-- Witness for C9: the unreadable-archive conjunct applied to a concrete
archive, and the bad-archive-removal conjunct applied to a concrete
directory input holding one unreadable ZIP and one folder of images. -/
theorem C9_convert_returns_count_and_contains_errors_witness :
    (createPdfsFromZip ⟨false, ["a.png"], fun _ => true⟩ (fun _ => true)
        "/out" "/in/bad.zip" true []
      = { GroupResult.init [] with zipErrors := ["/in/bad.zip"] })
    ∧ ((convert
          { kind := .directory, inputPath := "/in",
            zip := ⟨false, [], fun _ => false⟩,
            dir := { zips := [("/in/bad.zip", ⟨false, ["a.png"], fun _ => true⟩)],
                     folders := [⟨"/in", ".", ["a.png"]⟩],
                     bottomUpDirs := [], tree := [] },
            decodeOk := fun _ => true, writeOk := fun _ => true }
          "/out" false []).1.count
        = (convert
          { kind := .directory, inputPath := "/in",
            zip := ⟨false, [], fun _ => false⟩,
            dir := { zips := [], folders := [⟨"/in", ".", ["a.png"]⟩],
                     bottomUpDirs := [], tree := [] },
            decodeOk := fun _ => true, writeOk := fun _ => true }
          "/out" false []).1.count) :=
  ⟨(C9_convert_returns_count_and_contains_errors.2.2.1
      ⟨false, ["a.png"], fun _ => true⟩ (fun _ => true) "/out" "/in/bad.zip" true [] rfl),
    (C9_convert_returns_count_and_contains_errors.2.2.2
      { kind := .directory, inputPath := "/in",
        zip := ⟨false, [], fun _ => false⟩,
        dir := { zips := [("/in/bad.zip", ⟨false, ["a.png"], fun _ => true⟩)],
                 folders := [⟨"/in", ".", ["a.png"]⟩],
                 bottomUpDirs := [], tree := [] },
        decodeOk := fun _ => true, writeOk := fun _ => true }
      "/out" false [] "/in/bad.zip" ⟨false, ["a.png"], fun _ => true⟩ [] rfl rfl rfl).1⟩

/-! ## Claim C10 -/

/-- C10: an input that is neither an existing `.zip` file nor an existing
directory falls through both cases of `convert`: the returned count is 0, no
PDF is written, no source file is deleted and the directory tree is untouched,
whatever the `delete_source` flag. -/
theorem C10_other_input_no_effect (w : World) (outputDir : String)
    (deleteSource : Bool) (outFiles0 : List String) (h : w.kind = .other) :
    (convert w outputDir deleteSource outFiles0).1.count = 0
    ∧ (convert w outputDir deleteSource outFiles0).1.written = []
    ∧ (convert w outputDir deleteSource outFiles0).1.deleted = []
    ∧ (convert w outputDir deleteSource outFiles0).1.outFiles = outFiles0
    ∧ (convert w outputDir deleteSource outFiles0).2 = w.dir.tree := by
  simp [convert, h, GroupResult.init]

/-- Witness for C10: a nonexistent path, with `delete_source` enabled. -/
theorem C10_other_input_no_effect_witness :
    (convert
        { kind := .other, inputPath := "/nope.txt",
          zip := ⟨false, [], fun _ => false⟩,
          dir := { zips := [], folders := [], bottomUpDirs := [],
                   tree := [("/d", ["x"])] },
          decodeOk := fun _ => true, writeOk := fun _ => true }
        "/out" true ["/out/a.pdf"]).1.count = 0
    ∧ (convert
        { kind := .other, inputPath := "/nope.txt",
          zip := ⟨false, [], fun _ => false⟩,
          dir := { zips := [], folders := [], bottomUpDirs := [],
                   tree := [("/d", ["x"])] },
          decodeOk := fun _ => true, writeOk := fun _ => true }
        "/out" true ["/out/a.pdf"]).2 = [("/d", ["x"])] := by
  have h := C10_other_input_no_effect
    { kind := .other, inputPath := "/nope.txt",
      zip := ⟨false, [], fun _ => false⟩,
      dir := { zips := [], folders := [], bottomUpDirs := [],
               tree := [("/d", ["x"])] },
      decodeOk := fun _ => true, writeOk := fun _ => true }
    "/out" true ["/out/a.pdf"] rfl
  exact ⟨h.1, h.2.2.2.2⟩

/-! ## Claim C1 -/

/-- C1 counterexample: a directory group whose single image fails to decode.
`_create_pdf_from_images` still resolves an output path and calls
`pdf.output` on the empty document: in a world where that write succeeds, a
PDF file is written (and the function returns `True`, so it is counted); in a
world where the write fails, a save error is recorded beyond the per-image
decode error.  Both outcomes contradict the claim that such a group produces
no output file and no error beyond the per-image decode errors. -/
theorem C1_counterexample_dir_group_all_decode_fail :
    (createPdfFromImages (fun _ => false) (fun _ => true)
        "/out" "/in" ["a.png"] "g" false []).1 = true
    ∧ (createPdfFromImages (fun _ => false) (fun _ => true)
        "/out" "/in" ["a.png"] "g" false []).2.written = ["/out/g.pdf"]
    ∧ (createPdfFromImages (fun _ => false) (fun _ => true)
        "/out" "/in" ["a.png"] "g" false []).2.imgErrors = ["/in/a.png"]
    ∧ (createPdfFromImages (fun _ => false) (fun _ => false)
        "/out" "/in" ["a.png"] "g" false []).2.saveErrors = ["/out/g.pdf"] := by
  decide

/-- C1 (amended): for a ZIP group in which no image decodes, the
`processed_any` guard of line 214 holds: no output path is resolved, no write
is attempted, nothing is written and the only effect is the per-image error
records (first conjunct).  For a directory group with a non-empty
accepted-extension image list in which every decode fails,
`_create_pdf_from_images` has no such guard: it resolves a unique output path
and attempts `pdf.output` on the zero-page document — if the write oracle
succeeds the file is written (and counted), and if it fails a save error is
recorded beyond the per-image errors (second conjunct). -/
theorem C1_amended_zero_decode_behaviour :
    (∀ (decodeOk writeOk : String → Bool) (outputDir zipBase : String)
        (outFiles : List String) (g : String × List String),
        (∀ f ∈ g.2, decodeOk f = false) →
        processZipGroup decodeOk writeOk outputDir zipBase outFiles g
          = { GroupResult.init outFiles with imgErrors := sortStrings g.2 })
    ∧ (∀ (decodeOk writeOk : String → Bool) (outputDir folderPath : String)
        (files : List String) (pdfName : String) (deleteSource : Bool)
        (outFiles : List String),
        files.filter isImageName ≠ [] →
        (∀ f, decodeOk f = false) →
        (createPdfFromImages decodeOk writeOk outputDir folderPath files pdfName
            deleteSource outFiles).2.attempted
          = [getUniquePdfPath outFiles outputDir pdfName]
        ∧ (writeOk (getUniquePdfPath outFiles outputDir pdfName) = true →
            (createPdfFromImages decodeOk writeOk outputDir folderPath files pdfName
              deleteSource outFiles).2.written
              = [getUniquePdfPath outFiles outputDir pdfName]
            ∧ (createPdfFromImages decodeOk writeOk outputDir folderPath files pdfName
              deleteSource outFiles).1 = true)
        ∧ (writeOk (getUniquePdfPath outFiles outputDir pdfName) = false →
            (createPdfFromImages decodeOk writeOk outputDir folderPath files pdfName
              deleteSource outFiles).2.saveErrors
              = [getUniquePdfPath outFiles outputDir pdfName]
            ∧ (createPdfFromImages decodeOk writeOk outputDir folderPath files pdfName
              deleteSource outFiles).1 = false)) := by
  constructor
  · intro decodeOk writeOk outputDir zipBase outFiles g hall
    have hsorted : ∀ f ∈ sortStrings g.2, decodeOk f = false := by
      intro f hf
      exact hall f ((sortStrings_perm g.2).mem_iff.mp hf)
    have hproc : (processImages decodeOk (sortStrings g.2)).1 = [] := by
      rw [processImages_eq]
      exact List.filter_eq_nil_iff.mpr (fun a ha => by simp [hsorted a ha])
    have herr : (processImages decodeOk (sortStrings g.2)).2 = sortStrings g.2 := by
      rw [processImages_eq]
      exact List.filter_eq_self.mpr (fun a ha => by simp [hsorted a ha])
    unfold processZipGroup
    rw [if_pos hproc, herr]
  · intro decodeOk writeOk outputDir folderPath files pdfName deleteSource outFiles hne hall
    have himg : sortStrings (files.filter isImageName) ≠ [] := sortStrings_ne_nil hne
    unfold createPdfFromImages
    rw [if_neg himg]
    by_cases hw : writeOk (getUniquePdfPath outFiles outputDir pdfName)
    · rw [if_pos hw]
      exact ⟨rfl, fun _ => ⟨rfl, rfl⟩, fun hfalse => absurd hw (by simp [hfalse])⟩
    · rw [if_neg hw]
      exact ⟨rfl, fun htrue => absurd htrue (by simpa using hw), fun _ => ⟨rfl, rfl⟩⟩

/-- Witness for the amended C1 at a concrete one-image group that fails to
decode, in the write-succeeds world and the write-fails world. -/
theorem C1_amended_zero_decode_behaviour_witness :
    processZipGroup (fun _ => false) (fun _ => true) "/out" "photos" []
        ("album", ["album/b.png"])
      = { GroupResult.init [] with imgErrors := ["album/b.png"] }
    ∧ (createPdfFromImages (fun _ => false) (fun _ => true)
        "/out" "/in" ["a.png"] "g" false []).2.attempted = ["/out/g.pdf"] :=
  ⟨C1_amended_zero_decode_behaviour.1 (fun _ => false) (fun _ => true) "/out" "photos"
      [] ("album", ["album/b.png"]) (fun f _ => rfl),
    (C1_amended_zero_decode_behaviour.2 (fun _ => false) (fun _ => true)
      "/out" "/in" ["a.png"] "g" false [] (by decide) (fun _ => rfl)).1⟩

/-! ## Claim C2 -/

/-- C2: evaluation at the failing input.  A readable ZIP `/src/photos.zip`
holding one decodable image, in a world where `pdf.output` fails: nothing is
written, the save error is recorded — and with `delete_source` enabled the
archive is deleted anyway, because the deletion at lines 229-233 runs after
the `try` block regardless of the write outcomes.  By contrast the loose-image
path deletes nothing when its write fails (last conjunct), as the claim
demands. -/
theorem C2_zip_deleted_despite_failed_write :
    (createPdfsFromZip ⟨true, ["a.png"], fun _ => true⟩ (fun _ => false)
        "/out" "/src/photos.zip" true []).written = []
    ∧ (createPdfsFromZip ⟨true, ["a.png"], fun _ => true⟩ (fun _ => false)
        "/out" "/src/photos.zip" true []).saveErrors = ["/out/photos.pdf"]
    ∧ (createPdfsFromZip ⟨true, ["a.png"], fun _ => true⟩ (fun _ => false)
        "/out" "/src/photos.zip" true []).deleted = ["/src/photos.zip"]
    ∧ (createPdfFromImages (fun _ => true) (fun _ => false)
        "/out" "/in" ["a.png"] "g" true []).2.deleted = [] := by
  decide

/-! ## Claim C8 -/

/-- C8: output base names.  A ZIP group that produces pages writes to the
unique path derived from `zipGroupName` — the archive stem for the root
group, and the stem, `'_'`, and the internal directory with `'/'` replaced by
`'_'` otherwise (first and second conjuncts); a directory group uses the
input's own base name for the root (`relpath = "."`) and the relative path
with separators replaced otherwise (third conjunct); and the
`photos.zip = {a.png, album/b.png}` scenario produces exactly
`photos.pdf` and `photos_album.pdf`, while a directory input `/in` with root
image `a.png` and subfolder `sub/b.jpg` produces `in.pdf` and `sub.pdf`
(final conjuncts). -/
theorem C8_output_base_names :
    (∀ (decodeOk writeOk : String → Bool) (outputDir zipBase : String)
        (outFiles : List String) (g : String × List String),
        (processImages decodeOk (sortStrings g.2)).1 ≠ [] →
        (processZipGroup decodeOk writeOk outputDir zipBase outFiles g).attempted
          = [getUniquePdfPath outFiles outputDir (zipGroupName zipBase g.1)])
    ∧ (∀ zipBase d, zipGroupName zipBase "" = zipBase
        ∧ (d ≠ "" → zipGroupName zipBase d = zipBase ++ "_" ++ replaceSep d))
    ∧ (∀ inputPath rel, dirGroupName inputPath "." = baseName inputPath
        ∧ (rel ≠ "." → dirGroupName inputPath rel = replaceSep rel))
    ∧ (createPdfsFromZip ⟨true, ["a.png", "album/b.png"], fun _ => true⟩
        (fun _ => true) "/out" "/x/photos.zip" false []).written
      = ["/out/photos.pdf", "/out/photos_album.pdf"]
    ∧ (convert
        { kind := .directory, inputPath := "/in",
          zip := ⟨false, [], fun _ => false⟩,
          dir := { zips := [],
                   folders := [⟨"/in", ".", ["a.png"]⟩, ⟨"/in/sub", "sub", ["b.jpg"]⟩],
                   bottomUpDirs := [], tree := [] },
          decodeOk := fun _ => true, writeOk := fun _ => true }
        "/out" false []).1.written
      = ["/out/in.pdf", "/out/sub.pdf"] := by
  refine ⟨?_, ?_, ?_, by decide, by decide⟩
  · intro decodeOk writeOk outputDir zipBase outFiles g hproc
    unfold processZipGroup
    rw [if_neg hproc]
    by_cases hw : writeOk (getUniquePdfPath outFiles outputDir (zipGroupName zipBase g.1))
    · rw [if_pos hw]
    · rw [if_neg hw]
  · intro zipBase d
    exact ⟨by simp [zipGroupName], fun hd => by simp [zipGroupName, hd]⟩
  · intro inputPath rel
    exact ⟨by simp [dirGroupName], fun hr => by simp [dirGroupName, hr]⟩

/-- Witness for C8: the group-naming conjunct applied to a concrete non-root
ZIP group with a decodable image. -/
theorem C8_output_base_names_witness :
    (processZipGroup (fun _ => true) (fun _ => true) "/out" "photos" []
        ("album", ["album/b.png"])).attempted
      = [getUniquePdfPath [] "/out" (zipGroupName "photos" "album")] :=
  C8_output_base_names.1 (fun _ => true) (fun _ => true) "/out" "photos" []
    ("album", ["album/b.png"]) (by decide)

/-! ## Claim C3 -/

theorem rmdirStep_eq_of_not_empty {tree : List (String × List String)} {d : String}
    (h : treeEntries tree d ≠ some []) : rmdirStep tree d = tree := by
  unfold rmdirStep
  split
  · next heq => exact absurd heq h
  · rfl

theorem treeEntries_some_mem {tree : List (String × List String)} {d : String}
    {es : List String} (h : treeEntries tree d = some es) : d ∈ tree.map Prod.fst := by
  induction tree with
  | nil => simp [treeEntries] at h
  | cons p rest ih =>
    obtain ⟨k, es'⟩ := p
    by_cases hk : k = d
    · subst hk; simp
    · simp only [treeEntries, hk, if_false] at h
      exact List.mem_cons_of_mem _ (ih h)

theorem rmdirRemove_keys (tree : List (String × List String)) (d : String) :
    (rmdirRemove tree d).map Prod.fst
      = (tree.filter (fun n => n.1 != d)).map Prod.fst := by
  unfold rmdirRemove
  rw [List.map_map]
  apply List.map_congr_left
  intro n _
  by_cases h : n.1 = dirName d <;> simp [h, Function.comp]

theorem rmdirStep_keys_preserved {tree : List (String × List String)} {d e : String}
    (hne : e ≠ d) (he : e ∈ tree.map Prod.fst) :
    e ∈ (rmdirStep tree d).map Prod.fst := by
  unfold rmdirStep
  split
  · rw [rmdirRemove_keys]
    rcases List.mem_map.mp he with ⟨n, hn, rfl⟩
    apply List.mem_map.mpr
    refine ⟨n, List.mem_filter.mpr ⟨hn, ?_⟩, rfl⟩
    exact bne_iff_ne.mpr hne
  · exact he

theorem cleanupPass_keys_preserved {e : String} : ∀ (order : List String)
    (tree : List (String × List String)), e ∉ order →
    e ∈ tree.map Prod.fst → e ∈ (cleanupPass tree order).map Prod.fst := by
  intro order
  induction order with
  | nil => intro tree _ he; exact he
  | cons d ds ih =>
    intro tree hno he
    simp only [cleanupPass, List.foldl_cons]
    have hne : e ≠ d := fun hc => hno (hc ▸ List.mem_cons_self _ _)
    exact ih (rmdirStep tree d) (fun hc => hno (List.mem_cons_of_mem _ hc))
      (rmdirStep_keys_preserved hne he)

/-- C3: the bottom-up cleanup pass removes a directory only when it is empty
at the time of its removal attempt.  If, after the attempts `pre` preceding
it, directory `d` still exists and has a non-empty entry list, then the
attempt on `d` is a complete no-op — the pass is the same as if `d` were not
in the walk order at all, and (`os.rmdir` raising `OSError` into the bare
`except … pass` handler) nothing is recorded — and `d` is still present after
the whole pass, the remaining attempts `suf` (which, coming from one
`os.walk`, do not mention `d` again) removing only their own directories. -/
theorem C3_cleanup_nonempty_dirs_survive (tree : List (String × List String))
    (pre suf : List String) (d : String) (hd : d ∉ suf)
    (hex : treeEntries (cleanupPass tree pre) d ≠ none)
    (hne : treeEntries (cleanupPass tree pre) d ≠ some []) :
    cleanupPass tree (pre ++ d :: suf) = cleanupPass tree (pre ++ suf)
    ∧ d ∈ (cleanupPass tree (pre ++ d :: suf)).map Prod.fst := by
  have hstep : rmdirStep (cleanupPass tree pre) d = cleanupPass tree pre :=
    rmdirStep_eq_of_not_empty hne
  have heq : cleanupPass tree (pre ++ d :: suf) = cleanupPass tree (pre ++ suf) := by
    unfold cleanupPass
    rw [List.foldl_append, List.foldl_append, List.foldl_cons]
    exact congrArg (fun t => List.foldl rmdirStep t suf) hstep
  refine ⟨heq, ?_⟩
  rw [heq]
  unfold cleanupPass
  rw [List.foldl_append]
  apply cleanupPass_keys_preserved suf _ hd
  obtain ⟨es, hes⟩ : ∃ es, treeEntries (cleanupPass tree pre) d = some es := by
    cases h : treeEntries (cleanupPass tree pre) d with
    | none => exact absurd h hex
    | some es => exact ⟨es, rfl⟩
  exact treeEntries_some_mem hes

/-- Witness for C3: after the bottom-up attempt removes the empty `/in/sub`,
the root `/in` still holds `a.png`, so its attempt leaves it in place. -/
theorem C3_cleanup_nonempty_dirs_survive_witness :
    cleanupPass [("/in", ["sub", "a.png"]), ("/in/sub", [])] (["/in/sub"] ++ "/in" :: [])
      = cleanupPass [("/in", ["sub", "a.png"]), ("/in/sub", [])] (["/in/sub"] ++ [])
    ∧ "/in" ∈ (cleanupPass [("/in", ["sub", "a.png"]), ("/in/sub", [])]
        (["/in/sub"] ++ "/in" :: [])).map Prod.fst :=
  C3_cleanup_nonempty_dirs_survive [("/in", ["sub", "a.png"]), ("/in/sub", [])]
    ["/in/sub"] [] "/in" (by decide) (by decide) (by decide)

end MassImgToPdf
